import Mathlib

set_option maxHeartbeats 1000000

/-
Verification of the Blind Chessboard UCI front end: a shallow embedding of
src/Custom-Additions/blind_chessboard_UCI.cpp together with the parts of
src/sf_13/src/uci.cpp it calls (UCI::square, UCI::move, UCI::to_move and
the position command parser).
-/

namespace BlindChess

/-
Token extraction: models istringstream extraction with the stream operator
(whitespace separated tokens; the separators occurring in this program are
space characters).
-/

def tokensAux : List Char → List Char → List String
  | [], acc => if acc.isEmpty then [] else [String.mk acc.reverse]
  | c :: cs, acc =>
    if c = ' ' then
      if acc.isEmpty then tokensAux cs [] else String.mk acc.reverse :: tokensAux cs []
    else tokensAux cs (c :: acc)

def words (s : String) : List String := tokensAux s.data []

def firstToken (s : String) : String := (words s).headD ""

/-
Squares, as the engine headers used by uci.cpp represent them: an index
0..63, with file_of s = s mod 8, rank_of s = s div 8 and
make_square f r = 8 * r + f.
-/

abbrev Square := Fin 64

def file_of (s : Square) : Nat := s.val % 8

def rank_of (s : Square) : Nat := s.val / 8

def make_square (f r : Nat) : Square := ⟨(8 * r + f) % 64, Nat.mod_lt _ (by decide)⟩

/-- UCI::square from src/sf_13/src/uci.cpp: the character 97 + file (97 is
the code of the letter a) followed by the character 49 + rank (49 is the
code of the digit 1). -/
def UCI.square (s : Square) : String :=
  String.mk [Char.ofNat (97 + file_of s), Char.ofNat (49 + rank_of s)]

inductive MoveType where
  | NORMAL
  | PROMOTION
  | ENPASSANT
  | CASTLING
deriving DecidableEq

/-- Promotion piece type: the move encoding of the engine stores a piece
type ranging over KNIGHT..QUEEN, whose piece-type numbers are 2..5. -/
inductive PromoPiece where
  | KNIGHT
  | BISHOP
  | ROOK
  | QUEEN
deriving DecidableEq

def PromoPiece.idx : PromoPiece → Nat
  | .KNIGHT => 2
  | .BISHOP => 3
  | .ROOK => 4
  | .QUEEN => 5

/-- The canonical move value of the rules engine: the no-move sentinel
MOVE_NONE, the null-move sentinel MOVE_NULL, or a proper move carrying a
source square, a destination square, a move type and a promotion piece
type. -/
inductive Move where
  | MOVE_NONE
  | MOVE_NULL
  | mk (from_sq : Square) (to_sq : Square) (type_of : MoveType) (promotion_type : PromoPiece)
deriving DecidableEq

/-- UCI::move from src/sf_13/src/uci.cpp: "(none)" for MOVE_NONE, "0000"
for MOVE_NULL; otherwise source square then destination square, where a
castling destination in standard mode is remapped to file G (6) or file C
(2) on the rank of the source, and a promotion appends the character at
index promotion_type of " pnbrqk". -/
def UCI.move (m : Move) (chess960 : Bool) : String :=
  match m with
  | .MOVE_NONE => "(none)"
  | .MOVE_NULL => "0000"
  | .mk f t ty pr =>
    let toSq : Square :=
      if ty = MoveType.CASTLING ∧ chess960 = false then
        make_square (if t > f then 6 else 2) (rank_of f)
      else t
    UCI.square f ++ UCI.square toSq ++
      (if ty = MoveType.PROMOTION then String.mk [" pnbrqk".data.getD pr.idx ' '] else "")

/-- The in-place normalization at the head of UCI::to_move: when the text
has length 5 its character 4 is lowercased (a promotion piece sent in
uppercase). -/
def normalizePromo (s : String) : String :=
  if s.length = 5 then ⟨s.data.set 4 (s.data.getD 4 ' ').toLower⟩ else s

/-- Modelled from the spec (sections 1 and 6): the position owned by the
rules-engine collaborator. Board contents are out of scope, so a position
is represented by the data that determines it at this interface: the FEN
it was set from, the canonical moves applied since, and the Chess960 flag
it was set with. -/
structure Position where
  base : String
  applied : List Move
  chess960 : Bool
deriving DecidableEq

def Position.set (fen : String) (c960 : Bool) : Position := ⟨fen, [], c960⟩

/-- Modelled from the spec (section 6): applying a canonical move to a
position (pos.do_move of the collaborator). -/
def do_move (pos : Position) (m : Move) : Position :=
  { pos with applied := pos.applied ++ [m] }

/-- Modelled from the spec (section 6): the legal-move generator is an
external collaborator, any function from positions to the list of
currently legal canonical moves. -/
def Engine : Type := Position → List Move

def MoveList (E : Engine) (pos : Position) : List Move := E pos

/-- UCI::to_move from src/sf_13/src/uci.cpp: lowercase a trailing
promotion letter, then return the first legal move whose rendering by
UCI::move (under the Chess960 flag of the position) equals the text, and
MOVE_NONE when none matches. -/
def UCI.to_move (E : Engine) (pos : Position) (str : String) : Move :=
  let str' := normalizePromo str
  match (MoveList E pos).find? (fun m => str' == UCI.move m pos.chess960) with
  | some m => m
  | none => Move.MOVE_NONE

/-- FEN string of the initial position (uci.cpp). -/
def StartFEN : String := "rnbqkbnr/pppppppp/8/8/8/8/PPPPPPPP/RNBQKBNR w KQkq - 0 1"

/-- Default value of the UCI_Chess960 option. The blind chessboard loop
never issues a setoption command (that handler is commented out in this
source tree), so the option keeps its default, false. -/
def UCI_Chess960_option : Bool := false

/-- The FEN accumulation of the fen branch of position(): tokens up to but
excluding "moves", each with a trailing space. -/
def collectFen : List String → String
  | [] => ""
  | t :: ts => if t = "moves" then "" else t ++ " " ++ collectFen ts

/-- The tokens remaining after the "moves" token in the fen branch of
position(). -/
def afterMoves : List String → List String
  | [] => []
  | t :: ts => if t = "moves" then ts else afterMoves ts

/-- The move-list replay loop of position(): applies each token converted
by UCI::to_move, stopping at the first token that converts to MOVE_NONE. -/
def applyMovesLoop (E : Engine) : Position → List String → Position
  | pos, [] => pos
  | pos, t :: ts =>
    let m := UCI.to_move E pos t
    if m = Move.MOVE_NONE then pos else applyMovesLoop E (do_move pos m) ts

/-- position() from src/sf_13/src/uci.cpp, on an extracted token list. The
startpos branch consumes one further token (the "moves" token if any)
before replaying; an unrecognized first token returns the position
unchanged. -/
def positionCmd (E : Engine) (pos : Position) (tokens : List String) : Position :=
  match tokens with
  | [] => pos
  | tok :: rest =>
    if tok = "startpos" then
      applyMovesLoop E (Position.set StartFEN UCI_Chess960_option) (rest.drop 1)
    else if tok = "fen" then
      applyMovesLoop E (Position.set (collectFen rest) UCI_Chess960_option) (afterMoves rest)
    else pos

/-- moveToNumber from blind_chessboard_UCI.cpp: on the slice substr(2, 2)
of the move text, uppercase file letter minus 65 plus 8 times (rank digit
minus 1). Returns none exactly where the C++ raises or indexes out of
bounds: substr(2, 2) with size below 2, element access on an empty slice,
or stoi on a non-digit. -/
def moveToNumber (themove : String) : Option Int :=
  if themove.length < 2 then none
  else match (themove.data.drop 2).take 2 with
    | [f, r] =>
      if r.isDigit then
        some (((Char.toUpper f).toNat : Int) - 65 + 8 * ((r.toNat : Int) - 48 - 1))
      else none
    | _ => none

/-- The digit-collecting loop of decToBinary: remainders mod 2, least
significant first, while n is positive. The fuel argument bounds the
iteration count; n.toNat + 1 always suffices since n halves each step. -/
def binLoop : Nat → Int → List Int
  | 0, _ => []
  | fuel + 1, n => if n > 0 then n % 2 :: binLoop fuel (n / 2) else []

/-- decToBinary from blind_chessboard_UCI.cpp: the collected remainders
printed in reverse order (most significant first); input 0 yields the
empty string because the loop body never runs. -/
def decToBinary (n : Int) : String :=
  String.join ((binLoop (n.toNat + 1) n).reverse.map (fun d => toString d))

/-- One-string truncation used by removeLastMove: s.substr(0, s.size() - 5).
The count argument has type size_t, so for sizes below 5 it wraps around
and substr returns the whole string. -/
def chopLast5 (s : String) : String :=
  if s.length < 5 then s else ⟨s.data.take (s.length - 5)⟩

/-- removeLastMove from blind_chessboard_UCI.cpp: truncates the last five
characters of both history strings. -/
def removeLastMove (PGN PGN_command : String) : String × String :=
  (chopLast5 PGN, chopLast5 PGN_command)

/-- getLastMove: PGN.substr(PGN.size() - 5, 4). Returns none where the C++
substr raises out_of_range (size below 5, where the position wraps). -/
def getLastMove (PGN : String) : Option String :=
  if PGN.length < 5 then none
  else some ⟨(PGN.data.drop (PGN.length - 5)).take 4⟩

/-- getLastMovedSquare: the destination-square slice substr(2, 2) of the
last move text. -/
def getLastMovedSquare (PGN : String) : Option String :=
  if PGN.length < 5 then none
  else some ⟨(((PGN.data.drop (PGN.length - 5)).take 4).drop 2).take 2⟩

/-- The data printed by pieceRaisingOutput for a non-empty move log. -/
structure RaiseInfo where
  lastMove : String
  square : String
  decimal : Int
  binary : String
deriving DecidableEq

/-- pieceRaisingOutput from blind_chessboard_UCI.cpp, as data: none when
the move log is empty (the program prints that no pieces are raised) and
also where the C++ would fault (back() on an empty vector, substr out of
range); otherwise the last structured record, the raised square, its
decimal index and its binary encoding. -/
def pieceRaisingOutput (PGN : String) (PGN_vec : List String) : Option RaiseInfo :=
  if PGN.length = 0 then none
  else do
    let last ← PGN_vec.getLast?
    let sq ← getLastMovedSquare PGN
    let lm ← getLastMove PGN
    let d ← moveToNumber lm
    some ⟨last, sq, d, decToBinary d⟩

/-- The session state of UCI::ChessboardLoop: the flat move log PGN, the
replay buffer PGN_command, the structured history PGN_vec and the engine
position. -/
structure Session where
  PGN : String
  PGN_command : String
  PGN_vec : List String
  pos : Position
deriving DecidableEq

def Session.histories (s : Session) : String × String × List String :=
  (s.PGN, s.PGN_command, s.PGN_vec)

/-- The object setup of UCI::ChessboardLoop. -/
def sessionInit : Session :=
  { PGN := ""
    PGN_command := "startpos moves "
    PGN_vec := []
    pos := Position.set StartFEN false }

/-- The move handler of UCI::ChessboardLoop: reject texts whose length is
not 4 (Invalid move format); otherwise append the text and a space to both
history strings, push the rendering of the converted move onto PGN_vec
when it is neither "(none)" nor "0000", and either roll the two strings
back (Not a legal move) or replay the buffer into the position. -/
def moveHandler (E : Engine) (s : Session) (themove : String) : Session :=
  if themove.length ≠ 4 then s
  else
    let PGN1 := s.PGN ++ themove ++ " "
    let PGNcmd1 := s.PGN_command ++ themove ++ " "
    let PGN_vec_size := s.PGN_vec.length
    let vec1 :=
      if UCI.move (UCI.to_move E s.pos themove) false ≠ "(none)" ∧
         UCI.move (UCI.to_move E s.pos themove) false ≠ "0000" then
        s.PGN_vec ++ [UCI.move (UCI.to_move E s.pos themove) false]
      else s.PGN_vec
    if PGN_vec_size = vec1.length then
      { s with
          PGN := (removeLastMove PGN1 PGNcmd1).1
          PGN_command := (removeLastMove PGN1 PGNcmd1).2
          PGN_vec := vec1 }
    else
      { PGN := PGN1
        PGN_command := PGNcmd1
        PGN_vec := vec1
        pos := positionCmd E s.pos (words PGNcmd1) }

/-- The removelastmove handler of UCI::ChessboardLoop: truncate both
history strings when PGN is non-empty, and pop the structured history when
it is non-empty. -/
def removeLastHandler (s : Session) : Session :=
  let pair :=
    if s.PGN.length ≠ 0 then removeLastMove s.PGN s.PGN_command
    else (s.PGN, s.PGN_command)
  { s with
      PGN := pair.1
      PGN_command := pair.2
      PGN_vec := if s.PGN_vec.length > 0 then s.PGN_vec.dropLast else s.PGN_vec }

/-- One iteration body of UCI::ChessboardLoop, dispatching on the first
token of the command line. Branches that only print (bestmove,
getpieceraise, getPGN, unknown) or only signal (quit, stop) leave the
session state unchanged; printposition replays the buffer into the
position. -/
def chessboardStep (E : Engine) (s : Session) (cmd : String) : Session :=
  let token := firstToken cmd
  if token = "quit" ∨ token = "stop" then s
  else if token = "printposition" then
    { s with pos := positionCmd E s.pos (words s.PGN_command) }
  else if token = "move" then moveHandler E s (((words cmd).drop 1).headD "")
  else if token = "bestmove" then s
  else if token = "removelastmove" then removeLastHandler s
  else if token = "getpieceraise" then s
  else if token = "getPGN" then s
  else s

def runSession (E : Engine) (cmds : List String) : Session :=
  cmds.foldl (chessboardStep E) sessionInit

/-- The loop condition of UCI::ChessboardLoop:
while (token != "quit" && argc == 1). -/
def shouldContinue (token : String) (argc : Nat) : Bool :=
  (!(token == "quit")) && (argc == 1)

/-- Modelled from the spec (command table of section 4.2): quit and stop
are both classified as termination requests. -/
def isTerminationRequest (token : String) : Bool :=
  (token == "quit") || (token == "stop")

/-- Interactive-mode (argc = 1) run of UCI::ChessboardLoop: one step per
input line, continuing while the loop condition holds; when input is
exhausted getline fails and cmd becomes "quit" for a final iteration. -/
def runLoop (E : Engine) (s : Session) : List String → Session
  | [] => chessboardStep E s "quit"
  | line :: rest =>
    let s' := chessboardStep E s line
    if shouldContinue (firstToken line) 1 then runLoop E s' rest else s'

/-- The acceptance test of the move handler along a sequence of move
texts: each text is converted at the current position and accepted when
its rendering is neither "(none)" nor "0000"; positions advance by
do_move. Returns the list of accepted canonical moves. -/
def acceptRun (E : Engine) : Position → List String → Option (List Move)
  | _, [] => some []
  | pos, t :: ts =>
    let m := UCI.to_move E pos t
    if UCI.move m false ≠ "(none)" ∧ UCI.move m false ≠ "0000" then
      (acceptRun E (do_move pos m) ts).map (fun l => m :: l)
    else none

/-- The replay buffer accumulated by successful moves m1..mk:
"startpos moves " with each text and a trailing space appended. -/
def replayBuffer (texts : List String) : String :=
  texts.foldl (fun b t => b ++ t ++ " ") "startpos moves "

/-- Follows the words of the spec: the algebraic name of a square, a file
letter among a..h then a rank digit among 1..8. -/
def specAlgebraic (s : Square) : String :=
  String.mk ["abcdefgh".data.getD (file_of s) 'a', "12345678".data.getD (rank_of s) '1']

/-- Follows the words of the spec: the lowercase promotion letter. -/
def specPromoLetter : PromoPiece → String
  | .KNIGHT => "n"
  | .BISHOP => "b"
  | .ROOK => "r"
  | .QUEEN => "q"

/-- Follows the words of the spec (section 4.1) for moveToText: "(none)"
and "0000" for the sentinels; otherwise algebraic source then algebraic
destination, with a standard-mode castling destination remapped to file G
when the rook stands kingside of the king and to file C otherwise, on the
rank of the king, and a lowercase promotion letter appended for
promotions. -/
def specMoveText (m : Move) (chess960 : Bool) : String :=
  match m with
  | .MOVE_NONE => "(none)"
  | .MOVE_NULL => "0000"
  | .mk f t ty pr =>
    let dest : Square :=
      if ty = MoveType.CASTLING ∧ chess960 = false then
        make_square (if file_of t > file_of f then 6 else 2) (rank_of f)
      else t
    specAlgebraic f ++ specAlgebraic dest ++
      (if ty = MoveType.PROMOTION then specPromoLetter pr else "")

/-- squareToIndex of the spec: moveToNumber applied to a move text whose
destination slice is the given square. The source-square slot is a dummy
a1; moveToNumber reads only characters 2 and 3. -/
def squareToIndex (sq : String) : Option Int := moveToNumber ("a1" ++ sq)

/-- The 64 algebraic squares in board-index order a1, b1, ..., h8. -/
def allSquares : List String :=
  ((List.range 8).map (fun r => (List.range 8).map (fun f =>
    String.mk ["abcdefgh".data.getD f 'a', "12345678".data.getD r '1']))).flatten

/-- Follows the words of the spec: most-significant-bit-first binary
digits with no leading zeros and no fixed width (for indices below 64:
six bits, most significant first, leading zeros stripped). -/
def msbBinary (n : Nat) : String :=
  String.join ((((List.range 6).reverse.map (fun i => n / 2 ^ i % 2)).dropWhile
    (fun d => d == 0)).map (fun d => toString d))

/-- The structured-history listing printed by the getPGN handler and after
a legal move: item i is the numeral i + 1, then ". ", then the record. -/
def PGNlisting (vec : List String) : List String :=
  ((List.range vec.length).zip vec).map (fun p => toString (p.1 + 1) ++ ". " ++ p.2)

/-- The cross-history synchronization invariant: the replay buffer is the
seed "startpos moves " followed by the flat log, and the flat log holds
five characters per structured record. -/
def historiesInv (s : Session) : Prop :=
  s.PGN_command = "startpos moves " ++ s.PGN ∧ s.PGN.length = 5 * s.PGN_vec.length

def startpos0 : Position := Position.set StartFEN false

def sqE2 : Square := ⟨12, by decide⟩

def sqE4 : Square := ⟨28, by decide⟩

def moveE2E4 : Move := Move.mk sqE2 sqE4 MoveType.NORMAL PromoPiece.KNIGHT

/-- Modelled from the spec (scenario of section 8): a rules engine for
which the double pawn advance e2e4 is legal at the initial position. -/
def demoEngine : Engine := fun pos => if pos = startpos0 then [moveE2E4] else []

/-- A rules engine with no legal moves anywhere. -/
def emptyEngine : Engine := fun _ => []



/- ### Basic string and character facts -/

theorem string_len_zero_iff (s : String) : s.length = 0 ↔ s = "" := by
  constructor
  · intro h
    apply String.ext
    have h2 : s.data.length = 0 := h
    simpa using List.length_eq_zero.mp h2
  · intro h
    subst h
    rfl

theorem fileChar_ne (k : Nat) (h : k < 8) :
    Char.ofNat (97 + k) ≠ '(' ∧ Char.ofNat (97 + k) ≠ '0' ∧ Char.ofNat (97 + k) ≠ ' ' := by
  interval_cases k <;> exact ⟨by decide, by decide, by decide⟩

theorem rankChar_ne (k : Nat) (h : k < 8) : Char.ofNat (49 + k) ≠ ' ' := by
  interval_cases k <;> decide

theorem file_of_lt (s : Square) : file_of s < 8 := Nat.mod_lt _ (by decide)

theorem rank_of_lt (s : Square) : rank_of s < 8 := by
  have := s.isLt
  unfold rank_of
  omega

/- ### Rendering facts about UCI.move -/

theorem move_mk_eq (f t : Square) (ty : MoveType) (pr : PromoPiece) (c : Bool) :
    UCI.move (Move.mk f t ty pr) c =
      UCI.square f ++
      UCI.square (if ty = MoveType.CASTLING ∧ c = false then
          make_square (if t > f then 6 else 2) (rank_of f) else t) ++
      (if ty = MoveType.PROMOTION then String.mk [" pnbrqk".data.getD pr.idx ' '] else "") := rfl

theorem square_data (s : Square) :
    (UCI.square s).data = [Char.ofNat (97 + file_of s), Char.ofNat (49 + rank_of s)] := rfl

theorem move_mk_data (f t : Square) (ty : MoveType) (pr : PromoPiece) (c : Bool) :
    (UCI.move (Move.mk f t ty pr) c).data =
      Char.ofNat (97 + file_of f) :: Char.ofNat (49 + rank_of f) ::
      (UCI.square (if ty = MoveType.CASTLING ∧ c = false then
          make_square (if t > f then 6 else 2) (rank_of f) else t)).data ++
      (if ty = MoveType.PROMOTION then [" pnbrqk".data.getD pr.idx ' '] else []) := by
  rw [move_mk_eq, String.data_append, String.data_append, square_data]
  by_cases hp : ty = MoveType.PROMOTION
  · rw [if_pos hp, if_pos hp]
    simp
  · rw [if_neg hp, if_neg hp]
    simp

theorem move_eq_none_iff (m : Move) (c : Bool) :
    UCI.move m c = "(none)" ↔ m = Move.MOVE_NONE := by
  cases m with
  | MOVE_NONE => simp [UCI.move]
  | MOVE_NULL => simp [UCI.move]
  | mk f t ty pr =>
    simp only [iff_false, reduceCtorEq]
    intro h
    have hd := congrArg String.data h
    rw [move_mk_data] at hd
    have hh : Char.ofNat (97 + file_of f) = '(' := by
      have : ((("(none)" : String)).data) = ['(', 'n', 'o', 'n', 'e', ')'] := rfl
      rw [this] at hd
      exact (List.cons.injEq _ _ _ _).mp hd |>.1
    exact (fileChar_ne (file_of f) (file_of_lt f)).1 hh

theorem move_eq_null_iff (m : Move) (c : Bool) :
    UCI.move m c = "0000" ↔ m = Move.MOVE_NULL := by
  cases m with
  | MOVE_NONE => simp [UCI.move]
  | MOVE_NULL => simp [UCI.move]
  | mk f t ty pr =>
    simp only [iff_false, reduceCtorEq]
    intro h
    have hd := congrArg String.data h
    rw [move_mk_data] at hd
    have hh : Char.ofNat (97 + file_of f) = '0' := by
      have : ((("0000" : String)).data) = ['0', '0', '0', '0'] := rfl
      rw [this] at hd
      exact (List.cons.injEq _ _ _ _).mp hd |>.1
    exact (fileChar_ne (file_of f) (file_of_lt f)).2.1 hh

theorem move_mk_length (f t : Square) (ty : MoveType) (pr : PromoPiece) (c : Bool) :
    (UCI.move (Move.mk f t ty pr) c).length =
      if ty = MoveType.PROMOTION then 5 else 4 := by
  have : (UCI.move (Move.mk f t ty pr) c).length = (UCI.move (Move.mk f t ty pr) c).data.length := rfl
  rw [this, move_mk_data]
  by_cases hp : ty = MoveType.PROMOTION
  · rw [if_pos hp, if_pos hp]
    simp [square_data]
  · rw [if_neg hp, if_neg hp]
    simp [square_data]

theorem move_text_chars (m : Move) (c : Bool) (h : (UCI.move m c).length = 4) :
    (UCI.move m c).data ≠ [] ∧ ' ' ∉ (UCI.move m c).data := by
  cases m with
  | MOVE_NONE =>
    have hv : UCI.move Move.MOVE_NONE c = "(none)" := rfl
    rw [hv] at h
    exact absurd h (by decide)
  | MOVE_NULL =>
    have hv : UCI.move Move.MOVE_NULL c = "0000" := rfl
    rw [hv]
    exact ⟨by decide, by decide⟩
  | mk f t ty pr =>
    have hty : ty ≠ MoveType.PROMOTION := by
      intro hc
      rw [move_mk_length, if_pos hc] at h
      omega
    rw [move_mk_data, if_neg hty]
    set t2 := if ty = MoveType.CASTLING ∧ c = false then
        make_square (if t > f then 6 else 2) (rank_of f) else t with ht2
    constructor
    · simp
    · intro hmem
      rw [square_data] at hmem
      simp only [List.append_nil, List.mem_cons, List.not_mem_nil, or_false] at hmem
      rcases hmem with h1 | h1 | h1 | h1
      · exact (fileChar_ne (file_of f) (file_of_lt f)).2.2 h1.symm
      · exact rankChar_ne (rank_of f) (rank_of_lt f) h1.symm
      · exact (fileChar_ne (file_of t2) (file_of_lt t2)).2.2 h1.symm
      · exact rankChar_ne (rank_of t2) (rank_of_lt t2) h1.symm

/- ### normalizePromo facts -/

theorem normalizePromo_of_len_ne (s : String) (h : s.length ≠ 5) : normalizePromo s = s := by
  unfold normalizePromo
  rw [if_neg h]

theorem promoChar_lower (pr : PromoPiece) :
    (" pnbrqk".data.getD pr.idx ' ').toLower = " pnbrqk".data.getD pr.idx ' ' := by
  cases pr <;> decide

theorem normalizePromo_move (m : Move) (c : Bool) :
    normalizePromo (UCI.move m c) = UCI.move m c := by
  cases m with
  | MOVE_NONE =>
    have hv : UCI.move Move.MOVE_NONE c = "(none)" := rfl
    rw [hv]
    decide
  | MOVE_NULL =>
    have hv : UCI.move Move.MOVE_NULL c = "0000" := rfl
    rw [hv]
    decide
  | mk f t ty pr =>
    by_cases hty : ty = MoveType.PROMOTION
    · subst hty
      have hdata : (UCI.move (Move.mk f t MoveType.PROMOTION pr) c).data =
          [Char.ofNat (97 + file_of f), Char.ofNat (49 + rank_of f),
           Char.ofNat (97 + file_of t), Char.ofNat (49 + rank_of t),
           " pnbrqk".data.getD pr.idx ' '] := by
        rw [move_mk_data]
        have hcond : ¬(MoveType.PROMOTION = MoveType.CASTLING ∧ c = false) := by simp
        rw [if_neg hcond, if_pos rfl, square_data]
        rfl
      have hlen : (UCI.move (Move.mk f t MoveType.PROMOTION pr) c).length = 5 := by
        rw [move_mk_length]
        rfl
      unfold normalizePromo
      rw [if_pos hlen]
      apply String.ext
      rw [hdata]
      have hset : List.set [Char.ofNat (97 + file_of f), Char.ofNat (49 + rank_of f),
           Char.ofNat (97 + file_of t), Char.ofNat (49 + rank_of t),
           " pnbrqk".data.getD pr.idx ' '] 4
          ((List.getD [Char.ofNat (97 + file_of f), Char.ofNat (49 + rank_of f),
           Char.ofNat (97 + file_of t), Char.ofNat (49 + rank_of t),
           " pnbrqk".data.getD pr.idx ' '] 4 ' ').toLower) =
          [Char.ofNat (97 + file_of f), Char.ofNat (49 + rank_of f),
           Char.ofNat (97 + file_of t), Char.ofNat (49 + rank_of t),
           (" pnbrqk".data.getD pr.idx ' ').toLower] := rfl
      rw [hset, promoChar_lower]
    · apply normalizePromo_of_len_ne
      rw [move_mk_length, if_neg hty]
      omega

/- ### Truncation facts -/

theorem chopLast5_append (a t : String) (h : t.length = 4) :
    chopLast5 (a ++ t ++ " ") = a := by
  have hlen : (a ++ t ++ " ").length = a.length + 5 := by
    rw [String.length_append, String.length_append, h]
    rfl
  unfold chopLast5
  rw [hlen, if_neg (by omega)]
  apply String.ext
  show ((a ++ t ++ " ").data.take (a.length + 5 - 5)) = a.data
  have hdata : (a ++ t ++ " ").data = (a.data ++ t.data) ++ [' '] := by
    rw [String.data_append, String.data_append]
  rw [hdata]
  have h5 : a.length + 5 - 5 = a.length := by omega
  rw [h5, List.take_append_eq_append_take, List.take_append_eq_append_take]
  have hta : a.data.take a.length = a.data := List.take_of_length_le (le_refl _)
  have hlt : t.data.length = 4 := h
  have h0 : a.length - a.data.length = 0 := by
    have : a.length = a.data.length := rfl
    omega
  rw [hta, h0]
  have h02 : a.length - (a.data ++ t.data).length = 0 := by
    rw [List.length_append]
    have : a.length = a.data.length := rfl
    omega
  rw [h02]
  simp

theorem chopLast5_seed (seed s : String) (h : 5 ≤ s.length) :
    chopLast5 (seed ++ s) = seed ++ chopLast5 s := by
  have hlen : (seed ++ s).length = seed.length + s.length := String.length_append _ _
  unfold chopLast5
  rw [hlen, if_neg (by omega), if_neg (by omega)]
  apply String.ext
  show (seed ++ s).data.take (seed.length + s.length - 5) =
    (seed ++ String.mk (s.data.take (s.length - 5))).data
  rw [String.data_append, String.data_append]
  rw [List.take_append_eq_append_take]
  have hsd : seed.length = seed.data.length := rfl
  have h1 : seed.data.take (seed.length + s.length - 5) = seed.data :=
    List.take_of_length_le (by omega)
  rw [h1]
  congr 1
  show s.data.take (seed.length + s.length - 5 - seed.data.length) = s.data.take (s.length - 5)
  congr 1
  omega

/- ### Tokenizer facts -/

theorem tokensAux_token (t : List Char) (rest acc : List Char) (ht : t ≠ [])
    (hs : ' ' ∉ t) :
    tokensAux (t ++ ' ' :: rest) acc = String.mk (acc.reverse ++ t) :: tokensAux rest [] := by
  induction t generalizing acc with
  | nil => exact absurd rfl ht
  | cons c t ih =>
    have hc : c ≠ ' ' := fun hc => hs (hc ▸ List.mem_cons_self c t)
    have hs' : ' ' ∉ t := fun hm => hs (List.mem_cons_of_mem c hm)
    show tokensAux (c :: (t ++ ' ' :: rest)) acc = _
    rw [tokensAux]
    rw [if_neg hc]
    rcases eq_or_ne t [] with hte | hte
    · subst hte
      show tokensAux (' ' :: rest) (c :: acc) = _
      rw [tokensAux]
      rw [if_pos rfl, if_neg (by simp)]
      simp
    · rw [ih (c :: acc) hte hs']
      simp

theorem tokensAux_blocks (bs : List (List Char)) (h : ∀ b ∈ bs, b ≠ [] ∧ ' ' ∉ b) :
    tokensAux ((bs.map (fun b => b ++ [' '])).flatten) [] =
      bs.map (fun b => String.mk b) := by
  induction bs with
  | nil => rfl
  | cons b bs ih =>
    have hb := h b (List.mem_cons_self b bs)
    have hflat : ((b :: bs).map (fun b => b ++ [' '])).flatten =
        b ++ ' ' :: ((bs.map (fun b => b ++ [' '])).flatten) := by
      simp
    rw [hflat, tokensAux_token b _ [] hb.1 hb.2]
    rw [ih (fun b hbm => h b (List.mem_cons_of_mem _ hbm))]
    simp

theorem replayBuffer_data (texts : List String) (b : String) :
    (texts.foldl (fun b t => b ++ t ++ " ") b).data =
      b.data ++ (texts.map (fun t => t.data ++ [' '])).flatten := by
  induction texts generalizing b with
  | nil => simp
  | cons t ts ih =>
    show (ts.foldl (fun b t => b ++ t ++ " ") (b ++ t ++ " ")).data = _
    rw [ih]
    rw [String.data_append, String.data_append]
    simp

theorem words_replayBuffer (texts : List String)
    (h : ∀ t ∈ texts, t.data ≠ [] ∧ ' ' ∉ t.data) :
    words (replayBuffer texts) = "startpos" :: "moves" :: texts := by
  unfold words replayBuffer
  rw [replayBuffer_data]
  have hseed : ("startpos moves " : String).data ++ (texts.map (fun t => t.data ++ [' '])).flatten =
      ((("startpos" : String).data :: ("moves" : String).data :: texts.map String.data).map
        (fun b => b ++ [' '])).flatten := by
    simp only [List.map_cons, List.flatten_cons, List.map_map]
    rw [← List.append_assoc]
    congr 1
  rw [hseed, tokensAux_blocks]
  · simp only [List.map_cons, List.map_map]
    have h1 : String.mk ("startpos" : String).data = "startpos" := rfl
    have h2 : String.mk ("moves" : String).data = "moves" := rfl
    rw [h1, h2]
    congr 1
    have : (fun b => String.mk b) ∘ String.data = id := by
      funext s
      rfl
    rw [this, List.map_id]
  · intro b hb
    simp only [List.mem_cons, List.mem_map] at hb
    rcases hb with hb | hb | ⟨t, ht, hb⟩
    · subst hb
      exact ⟨by decide, by decide⟩
    · subst hb
      exact ⟨by decide, by decide⟩
    · subst hb
      exact h t ht

/- ### UCI.to_move facts -/

theorem to_move_of_find_some (E : Engine) (pos : Position) (str : String) (m : Move)
    (h : (MoveList E pos).find? (fun m => normalizePromo str == UCI.move m pos.chess960) = some m) :
    UCI.to_move E pos str = m := by
  show (match (MoveList E pos).find? (fun m => normalizePromo str == UCI.move m pos.chess960) with
    | some m => m
    | none => Move.MOVE_NONE) = m
  rw [h]

theorem to_move_of_find_none (E : Engine) (pos : Position) (str : String)
    (h : (MoveList E pos).find? (fun m => normalizePromo str == UCI.move m pos.chess960) = none) :
    UCI.to_move E pos str = Move.MOVE_NONE := by
  show (match (MoveList E pos).find? (fun m => normalizePromo str == UCI.move m pos.chess960) with
    | some m => m
    | none => Move.MOVE_NONE) = Move.MOVE_NONE
  rw [h]

theorem to_move_matches (E : Engine) (pos : Position) (str : String) (m : Move)
    (hne : UCI.to_move E pos str ≠ Move.MOVE_NONE)
    (hm : UCI.to_move E pos str = m) :
    normalizePromo str = UCI.move m pos.chess960 ∧ m ∈ MoveList E pos := by
  rcases hfind : (MoveList E pos).find? (fun m => normalizePromo str == UCI.move m pos.chess960) with _ | m2
  · exact absurd (to_move_of_find_none E pos str hfind) hne
  · have := to_move_of_find_some E pos str m2 hfind
    have hm2 : m2 = m := by rw [← hm, this]
    subst hm2
    constructor
    · have := List.find?_some hfind
      exact eq_of_beq this
    · exact List.mem_of_find?_eq_some hfind

/- ### Move handler case analysis -/

theorem moveHandler_invalid (E : Engine) (s : Session) (t : String) (h : t.length ≠ 4) :
    moveHandler E s t = s := by
  unfold moveHandler
  rw [if_pos h]

theorem moveHandler_reject (E : Engine) (s : Session) (t : String) (h4 : t.length = 4)
    (hsent : UCI.to_move E s.pos t = Move.MOVE_NONE ∨ UCI.to_move E s.pos t = Move.MOVE_NULL) :
    moveHandler E s t = s := by
  have hne : ¬(t.length ≠ 4) := by omega
  have hcond : ¬(UCI.move (UCI.to_move E s.pos t) false ≠ "(none)" ∧
      UCI.move (UCI.to_move E s.pos t) false ≠ "0000") := by
    rcases hsent with hs | hs
    · intro hc
      exact hc.1 ((move_eq_none_iff _ _).mpr hs)
    · intro hc
      exact hc.2 ((move_eq_null_iff _ _).mpr hs)
  simp only [moveHandler, if_neg hne, if_neg hcond, if_pos rfl]
  rw [removeLastMove]
  rw [chopLast5_append s.PGN t h4, chopLast5_append s.PGN_command t h4]
  simp only [if_true]

theorem moveHandler_legal (E : Engine) (s : Session) (t : String) (h4 : t.length = 4)
    (hnone : UCI.to_move E s.pos t ≠ Move.MOVE_NONE)
    (hnull : UCI.to_move E s.pos t ≠ Move.MOVE_NULL) :
    moveHandler E s t =
      { PGN := s.PGN ++ t ++ " "
        PGN_command := s.PGN_command ++ t ++ " "
        PGN_vec := s.PGN_vec ++ [UCI.move (UCI.to_move E s.pos t) false]
        pos := positionCmd E s.pos (words (s.PGN_command ++ t ++ " ")) } := by
  have hne : ¬(t.length ≠ 4) := by omega
  have hcond : UCI.move (UCI.to_move E s.pos t) false ≠ "(none)" ∧
      UCI.move (UCI.to_move E s.pos t) false ≠ "0000" := by
    constructor
    · intro hc
      exact hnone ((move_eq_none_iff _ _).mp hc)
    · intro hc
      exact hnull ((move_eq_null_iff _ _).mp hc)
  have hlen : ¬(s.PGN_vec.length =
      (s.PGN_vec ++ [UCI.move (UCI.to_move E s.pos t) false]).length) := by
    rw [List.length_append]
    simp
  simp only [moveHandler, if_neg hne, if_pos hcond, if_neg hlen]

/- ### Removelastmove handler case analysis -/

theorem removeLastHandler_empty (s : Session) (hP : s.PGN = "") (hv : s.PGN_vec = []) :
    removeLastHandler s = s := by
  have h0 : ¬(s.PGN.length ≠ 0) := by
    rw [hP]
    simp
  have hv0 : ¬(s.PGN_vec.length > 0) := by
    rw [hv]
    simp
  simp only [removeLastHandler, if_neg h0, if_neg hv0]

theorem removeLastHandler_after_legal (E : Engine) (s : Session) (t : String)
    (h4 : t.length = 4)
    (hnone : UCI.to_move E s.pos t ≠ Move.MOVE_NONE)
    (hnull : UCI.to_move E s.pos t ≠ Move.MOVE_NULL) :
    (removeLastHandler (moveHandler E s t)).histories = s.histories := by
  rw [moveHandler_legal E s t h4 hnone hnull]
  have hP : ¬((s.PGN ++ t ++ " ").length = 0) := by
    rw [String.length_append, String.length_append, h4]
    have h1 : (" " : String).length = 1 := rfl
    rw [h1]
    omega
  have hv : (s.PGN_vec ++ [UCI.move (UCI.to_move E s.pos t) false]).length > 0 := by
    simp
  simp only [removeLastHandler, if_pos hP, if_pos hv, removeLastMove]
  unfold Session.histories
  simp only
  rw [chopLast5_append s.PGN t h4, chopLast5_append s.PGN_command t h4]
  rw [List.dropLast_concat]

/- ### The claim theorems for C1 and C2 -/

/-- C1. Atomicity of a rejected move attempt: for every session state and
move text t, if the move command is rejected — because the length of t is
not 4 (Invalid move format) or because the rules engine maps t to the
no-move or null-move sentinel (Not a legal move) — then the flat log, the
replay buffer and the structured history are all byte-identical to their
values before the command; the tentative append is rolled back exactly. -/
theorem C1_move_reject_atomic (E : Engine) (s : Session) (t : String)
    (h : t.length ≠ 4 ∨ UCI.to_move E s.pos t = Move.MOVE_NONE ∨
      UCI.to_move E s.pos t = Move.MOVE_NULL) :
    (moveHandler E s t).histories = s.histories := by
  rcases h with h | h
  · rw [moveHandler_invalid E s t h]
  · by_cases h4 : t.length = 4
    · rw [moveHandler_reject E s t h4 h]
    · rw [moveHandler_invalid E s t h4]

/-- Witness for C1 at concrete inputs: the engine with no legal moves
rejects e2e4 at the initial session, leaving all three histories equal. -/
theorem C1_move_reject_atomic_witness :
    (moveHandler emptyEngine sessionInit "e2e4").histories = sessionInit.histories :=
  C1_move_reject_atomic emptyEngine sessionInit "e2e4" (Or.inr (Or.inl rfl))

/-- C2. Round-trip law for undo: a successful move m followed by
removelastmove restores the flat log, the replay buffer and the structured
history to exactly their values before the move; and removelastmove on a
session with empty history changes none of the three histories and raises
no error. -/
theorem C2_removelastmove_roundtrip (E : Engine) (s : Session) (t : String) :
    (t.length = 4 → UCI.to_move E s.pos t ≠ Move.MOVE_NONE →
      UCI.to_move E s.pos t ≠ Move.MOVE_NULL →
      (removeLastHandler (moveHandler E s t)).histories = s.histories) ∧
    (s.PGN = "" → s.PGN_vec = [] →
      (removeLastHandler s).histories = s.histories) := by
  constructor
  · intro h4 hnone hnull
    exact removeLastHandler_after_legal E s t h4 hnone hnull
  · intro hP hv
    rw [removeLastHandler_empty s hP hv]

/-- Witness for C2 at concrete inputs: moving e2e4 with the demo engine
then undoing restores the initial histories, and removelastmove on the
fresh session is a no-op. -/
theorem C2_removelastmove_roundtrip_witness :
    (removeLastHandler (moveHandler demoEngine sessionInit "e2e4")).histories =
      sessionInit.histories ∧
    (removeLastHandler sessionInit).histories = sessionInit.histories := by
  constructor
  · exact (C2_removelastmove_roundtrip demoEngine sessionInit "e2e4").1 (by decide)
      (by decide) (by decide)
  · exact (C2_removelastmove_roundtrip demoEngine sessionInit "e2e4").2 rfl rfl

/- ### The cross-history invariant -/

theorem inv_sessionInit : historiesInv sessionInit :=
  ⟨(String.append_empty _).symm, rfl⟩

theorem inv_moveHandler (E : Engine) (s : Session) (t : String)
    (h : historiesInv s) : historiesInv (moveHandler E s t) := by
  by_cases h4 : t.length = 4
  · by_cases hn : UCI.to_move E s.pos t = Move.MOVE_NONE ∨
        UCI.to_move E s.pos t = Move.MOVE_NULL
    · rw [moveHandler_reject E s t h4 hn]
      exact h
    · push_neg at hn
      rw [moveHandler_legal E s t h4 hn.1 hn.2]
      constructor
      · show s.PGN_command ++ t ++ " " = "startpos moves " ++ (s.PGN ++ t ++ " ")
        rw [h.1, String.append_assoc, String.append_assoc, String.append_assoc]
      · show (s.PGN ++ t ++ " ").length = 5 * (s.PGN_vec ++ [_]).length
        rw [String.length_append, String.length_append, h4, h.2, List.length_append]
        have h1 : (" " : String).length = 1 := rfl
        rw [h1]
        simp
        omega
  · rw [moveHandler_invalid E s t h4]
    exact h

theorem inv_removeLastHandler (s : Session) (h : historiesInv s) :
    historiesInv (removeLastHandler s) := by
  by_cases hP : s.PGN.length = 0
  · have hPe : s.PGN = "" := (string_len_zero_iff s.PGN).mp hP
    have hv : s.PGN_vec = [] := by
      have := h.2
      rw [hP] at this
      have hlen : s.PGN_vec.length = 0 := by omega
      exact List.length_eq_zero.mp hlen
    rw [removeLastHandler_empty s hPe hv]
    exact h
  · have hk : 1 ≤ s.PGN_vec.length := by
      rcases Nat.eq_zero_or_pos s.PGN_vec.length with h0 | h0
      · rw [h.2, h0] at hP
        omega
      · omega
    have h5 : 5 ≤ s.PGN.length := by
      rw [h.2]
      omega
    have hg : s.PGN.length ≠ 0 := hP
    have hgv : s.PGN_vec.length > 0 := hk
    simp only [removeLastHandler, if_pos hg, if_pos hgv, removeLastMove]
    constructor
    · show chopLast5 s.PGN_command = "startpos moves " ++ chopLast5 s.PGN
      rw [h.1]
      exact chopLast5_seed _ _ h5
    · show (chopLast5 s.PGN).length = 5 * s.PGN_vec.dropLast.length
      have hch : (chopLast5 s.PGN).length = s.PGN.length - 5 := by
        unfold chopLast5
        rw [if_neg (by omega)]
        show (s.PGN.data.take (s.PGN.length - 5)).length = s.PGN.length - 5
        rw [List.length_take]
        have : s.PGN.length = s.PGN.data.length := rfl
        omega
      rw [hch, List.length_dropLast, h.2]
      omega

theorem inv_step (E : Engine) (s : Session) (cmd : String)
    (h : historiesInv s) : historiesInv (chessboardStep E s cmd) := by
  simp only [chessboardStep]
  split
  · exact h
  · split
    · exact h
    · split
      · exact inv_moveHandler E s _ h
      · split
        · exact h
        · split
          · exact inv_removeLastHandler s h
          · split
            · exact h
            · split
              · exact h
              · exact h

theorem inv_runSession (E : Engine) (cmds : List String) :
    historiesInv (runSession E cmds) := by
  unfold runSession
  have haux : ∀ (l : List String) (s : Session), historiesInv s →
      historiesInv (l.foldl (chessboardStep E) s) := by
    intro l
    induction l with
    | nil => intro s hs; exact hs
    | cons c l ih =>
      intro s hs
      exact ih _ (inv_step E s c hs)
  exact haux cmds sessionInit inv_sessionInit

/-- C10. Cross-history synchronization invariant: after every processed
command the replay buffer equals the literal seed "startpos moves "
followed by the flat log, and the length of the flat log is exactly five
times the number of structured records; in particular a non-empty flat log
forces a non-empty structured history, so the five-character suffix
extractions and the back() access stay within bounds. -/
theorem C10_cross_history_sync (E : Engine) (cmds : List String) :
    historiesInv (runSession E cmds) ∧
    ((runSession E cmds).PGN ≠ "" →
      (runSession E cmds).PGN_vec ≠ [] ∧
      (getLastMove (runSession E cmds).PGN).isSome ∧
      (getLastMovedSquare (runSession E cmds).PGN).isSome ∧
      ((runSession E cmds).PGN_vec.getLast?).isSome) := by
  have hInv := inv_runSession E cmds
  refine ⟨hInv, ?_⟩
  intro hne
  have hlen : (runSession E cmds).PGN.length ≠ 0 := by
    intro h0
    exact hne ((string_len_zero_iff _).mp h0)
  have h5 : 5 ≤ (runSession E cmds).PGN.length := by
    have h2 := hInv.2
    rcases Nat.eq_zero_or_pos (runSession E cmds).PGN_vec.length with h0 | h0
    · rw [h2, h0] at hlen
      omega
    · rw [h2]
      omega
  have hvne : (runSession E cmds).PGN_vec ≠ [] := by
    intro h0
    have h2 := hInv.2
    rw [h0] at h2
    simp at h2
    exact hlen h2
  refine ⟨hvne, ?_, ?_, ?_⟩
  · unfold getLastMove
    rw [if_neg (by omega)]
    rfl
  · unfold getLastMovedSquare
    rw [if_neg (by omega)]
    rfl
  · exact List.getLast?_isSome.mpr hvne

/-- Witness for C10 at concrete inputs: after the command list
["move e2e4"] with the demo engine, the invariant holds and the non-empty
flat log yields a non-empty structured history. -/
theorem C10_cross_history_sync_witness :
    historiesInv (runSession demoEngine ["move e2e4"]) ∧
    (runSession demoEngine ["move e2e4"]).PGN_vec ≠ [] := by
  constructor
  · exact (C10_cross_history_sync demoEngine ["move e2e4"]).1
  · exact ((C10_cross_history_sync demoEngine ["move e2e4"]).2 (by decide)).1

/- ### C4: loop termination -/

/-- C4 counterexample. The spec classifies stop as a termination request,
but the loop condition while (token != "quit" && argc == 1) continues
after a stop command in interactive mode: stop is a termination request
while shouldContinue still evaluates to true. -/
theorem C4_stop_continues_counterexample :
    isTerminationRequest "stop" = true ∧ shouldContinue "stop" 1 = true := by decide

/-- C4 as amended: in interactive mode (argc = 1) the dispatch loop
terminates exactly when the parsed token is "quit" (a stop command sets
the stop flag of the engine but does not leave the loop), and in one-shot
argument mode (argc not 1) it terminates unconditionally after the single
command; at loop level, a leading "quit" token stops the run after its own
step and any other line is followed by the rest of the input. -/
theorem C4_loop_termination_amended :
    (∀ (tok : String) (argc : Nat),
      shouldContinue tok argc = false ↔ (tok = "quit" ∨ argc ≠ 1)) ∧
    (∀ (E : Engine) (s : Session) (line : String) (rest : List String),
      (firstToken line = "quit" → runLoop E s (line :: rest) = chessboardStep E s line) ∧
      (firstToken line ≠ "quit" →
        runLoop E s (line :: rest) = runLoop E (chessboardStep E s line) rest)) := by
  constructor
  · intro tok argc
    by_cases h1 : tok = "quit" <;> by_cases h2 : argc = 1 <;>
      simp [shouldContinue, h1, h2]
  · intro E s line rest
    constructor
    · intro hq
      simp only [runLoop]
      rw [if_neg (by simp [shouldContinue, hq])]
    · intro hq
      simp only [runLoop]
      rw [if_pos (by simp [shouldContinue, hq])]

/-- Witness for C4 as amended, at concrete inputs: stop does not falsify
the loop condition in interactive mode; a quit line ends the run after one
step; a stop line is followed by the remaining input. -/
theorem C4_loop_termination_amended_witness :
    shouldContinue "stop" 1 ≠ false ∧
    runLoop emptyEngine sessionInit ["quit"] =
      chessboardStep emptyEngine sessionInit "quit" ∧
    runLoop emptyEngine sessionInit ["stop"] =
      runLoop emptyEngine (chessboardStep emptyEngine sessionInit "stop") [] := by
  refine ⟨?_, ?_, ?_⟩
  · intro hfalse
    rcases (C4_loop_termination_amended.1 "stop" 1).mp hfalse with h | h
    · exact absurd h (by decide)
    · exact h rfl
  · exact (C4_loop_termination_amended.2 emptyEngine sessionInit "quit" []).1 (by decide)
  · exact (C4_loop_termination_amended.2 emptyEngine sessionInit "stop" []).2 (by decide)

/- ### C7: square indexing -/

/-- C7. squareToIndex (moveToNumber on the destination square of a move
text) restricted to the 64 algebraic squares in board order a1..h8 hits
exactly the integers 0..63 in order — together with the distinctness of
the squares this is a bijection between the squares and [0,63] — and
squareToIndex a1 = 0, h8 = 63, e2 = 12, with the file letter matched
case-insensitively (E2 = 12 as well). -/
theorem C7_squareToIndex_bijection :
    allSquares.Nodup ∧
    allSquares.map squareToIndex = (List.range 64).map (fun n => some (n : Int)) ∧
    squareToIndex "a1" = some 0 ∧ squareToIndex "h8" = some 63 ∧
    squareToIndex "e2" = some 12 ∧ squareToIndex "E2" = some 12 := by decide

/- ### C8: binary encoding -/

/-- C8. For 1 ≤ n ≤ 63, decToBinary renders n as most-significant-first
binary digits with no leading zeros and no fixed width, and
decToBinary 0 is the empty string (the digit loop never runs). -/
theorem C8_indexToBinary :
    (∀ n : Fin 64, 1 ≤ n.val → decToBinary (n.val : Int) = msbBinary n.val) ∧
    decToBinary 0 = "" := by
  constructor
  · decide
  · rfl

/-- Witness for C8 at the concrete index 28. -/
theorem C8_indexToBinary_witness :
    decToBinary ((28 : Nat) : Int) = msbBinary 28 :=
  C8_indexToBinary.1 ⟨28, by decide⟩ (by decide)

/- ### C5: move-text codec round trip -/

/-- C5. Notation-codec round trip: for a position whose legal moves render
to pairwise distinct texts (as the rules engine guarantees), converting
any legal move to text and back returns the same move; and any text that
(after lowercasing a trailing promotion letter) matches the rendering of
no legal move converts to the no-move sentinel. -/
theorem C5_codec_roundtrip (E : Engine) (pos : Position) (m : Move) (text : String) :
    (m ∈ MoveList E pos →
      (∀ m1 ∈ MoveList E pos, ∀ m2 ∈ MoveList E pos,
        UCI.move m1 pos.chess960 = UCI.move m2 pos.chess960 → m1 = m2) →
      UCI.to_move E pos (UCI.move m pos.chess960) = m) ∧
    ((∀ m2 ∈ MoveList E pos, normalizePromo text ≠ UCI.move m2 pos.chess960) →
      UCI.to_move E pos text = Move.MOVE_NONE) := by
  constructor
  · intro hm hinj
    have hnorm := normalizePromo_move m pos.chess960
    have hpm : (fun m2 => normalizePromo (UCI.move m pos.chess960) ==
        UCI.move m2 pos.chess960) m = true := by
      rw [hnorm]
      simp
    rcases hfind : (MoveList E pos).find? (fun m2 =>
        normalizePromo (UCI.move m pos.chess960) == UCI.move m2 pos.chess960) with _ | m2
    · have hnone := List.find?_eq_none.mp hfind m hm
      exact absurd (by rw [hnorm]; exact beq_self_eq_true _) hnone
    · have hres := to_move_of_find_some E pos _ m2 hfind
      have hp2 := List.find?_some hfind
      have hmem2 := List.mem_of_find?_eq_some hfind
      have heq : UCI.move m pos.chess960 = UCI.move m2 pos.chess960 := by
        have := eq_of_beq hp2
        rw [hnorm] at this
        exact this
      rw [hres]
      exact hinj m2 hmem2 m hm heq.symm
  · intro hno
    apply to_move_of_find_none
    rw [List.find?_eq_none]
    intro x hx
    simp only [beq_iff_eq]
    exact hno x hx

/-- Witness for C5 at concrete inputs: with the demo engine at the initial
position, e2e4 round-trips and the text zzzz converts to MOVE_NONE. -/
theorem C5_codec_roundtrip_witness :
    UCI.to_move demoEngine startpos0 (UCI.move moveE2E4 startpos0.chess960) = moveE2E4 ∧
    UCI.to_move demoEngine startpos0 "zzzz" = Move.MOVE_NONE := by
  have hlist : MoveList demoEngine startpos0 = [moveE2E4] := by decide
  constructor
  · apply (C5_codec_roundtrip demoEngine startpos0 moveE2E4 "zzzz").1
    · rw [hlist]
      simp
    · intro m1 h1 m2 h2 _
      rw [hlist] at h1 h2
      simp at h1 h2
      rw [h1, h2]
  · apply (C5_codec_roundtrip demoEngine startpos0 moveE2E4 "zzzz").2
    intro m2 hm2
    rw [hlist] at hm2
    simp at hm2
    subst hm2
    decide

/- ### C6: moveToText output -/

/-- The rank agreement that the internal castling encoding (king captures
own rook) guarantees: for a castling move, source and destination share a
rank. -/
def castlingSameRank : Move → Prop
  | .mk f t MoveType.CASTLING _ => rank_of t = rank_of f
  | _ => True

theorem promoLetter_eq (pr : PromoPiece) :
    String.mk [" pnbrqk".data.getD pr.idx ' '] = specPromoLetter pr := by
  cases pr <;> rfl

theorem square_eq_specAlgebraic (s : Square) : UCI.square s = specAlgebraic s := by
  unfold UCI.square specAlgebraic
  have h1 : ∀ k, k < 8 → Char.ofNat (97 + k) = "abcdefgh".data.getD k 'a' := by
    intro k hk
    interval_cases k <;> rfl
  have h2 : ∀ k, k < 8 → Char.ofNat (49 + k) = "12345678".data.getD k '1' := by
    intro k hk
    interval_cases k <;> rfl
  rw [h1 _ (file_of_lt s), h2 _ (rank_of_lt s)]

/-- C6. moveToText output: UCI::move renders the sentinels as "(none)"
and "0000", and any proper move (whose castling encoding keeps source and
destination on one rank) as the algebraic source square followed by the
algebraic destination square — remapped for standard-mode castling to
file G when the rook is kingside of the king and to file C otherwise, on
the rank of the king — with a lowercase promotion letter appended for
promotions, exactly as the spec words it. -/
theorem C6_moveToText (m : Move) (c960 : Bool) (h : castlingSameRank m) :
    UCI.move m c960 = specMoveText m c960 := by
  cases m with
  | MOVE_NONE => rfl
  | MOVE_NULL => rfl
  | mk f t ty pr =>
    rw [move_mk_eq]
    unfold specMoveText
    have hdest : (if ty = MoveType.CASTLING ∧ c960 = false then
          make_square (if t > f then 6 else 2) (rank_of f) else t) =
        (if ty = MoveType.CASTLING ∧ c960 = false then
          make_square (if file_of t > file_of f then 6 else 2) (rank_of f) else t) := by
      by_cases hc : ty = MoveType.CASTLING ∧ c960 = false
      · rw [if_pos hc, if_pos hc]
        rcases hc with ⟨hty, _⟩
        subst hty
        have hrk : rank_of t = rank_of f := h
        have hiff : (t > f) ↔ (file_of t > file_of f) := by
          have hlt : (t > f) ↔ f.val < t.val := Iff.rfl
          have hrk2 : t.val / 8 = f.val / 8 := hrk
          unfold file_of
          rw [hlt]
          omega
        by_cases hgt : t > f
        · rw [if_pos hgt, if_pos (hiff.mp hgt)]
        · rw [if_neg hgt, if_neg (fun hx => hgt (hiff.mpr hx))]
      · rw [if_neg hc, if_neg hc]
    rw [hdest]
    rw [square_eq_specAlgebraic, square_eq_specAlgebraic]
    congr 1
    by_cases hp : ty = MoveType.PROMOTION
    · rw [if_pos hp, if_pos hp, promoLetter_eq]
    · rw [if_neg hp, if_neg hp]

/-- Witness for C6 at a concrete input: white kingside castling (king e1,
rook h1, internally king captures rook) renders identically under the
source function and the spec wording, namely as e1g1. -/
theorem C6_moveToText_witness :
    UCI.move (Move.mk ⟨4, by decide⟩ ⟨7, by decide⟩ MoveType.CASTLING PromoPiece.KNIGHT) false =
      specMoveText (Move.mk ⟨4, by decide⟩ ⟨7, by decide⟩ MoveType.CASTLING PromoPiece.KNIGHT)
        false :=
  C6_moveToText _ false
    (by show rank_of (⟨7, by decide⟩ : Square) = rank_of (⟨4, by decide⟩ : Square); decide)

/- ### C3: replay-buffer equivalence -/

theorem acceptRun_chars (E : Engine) (pos : Position) (ts : List String) (ms : List Move)
    (h4 : ∀ t ∈ ts, t.length = 4)
    (ha : acceptRun E pos ts = some ms) :
    ∀ t ∈ ts, t.data ≠ [] ∧ ' ' ∉ t.data := by
  induction ts generalizing pos ms with
  | nil =>
    intro t ht
    exact absurd ht (List.not_mem_nil t)
  | cons t ts ih =>
    simp only [acceptRun] at ha
    by_cases hc : UCI.move (UCI.to_move E pos t) false ≠ "(none)" ∧
        UCI.move (UCI.to_move E pos t) false ≠ "0000"
    · rw [if_pos hc] at ha
      rcases Option.map_eq_some'.mp ha with ⟨ms', hms', _⟩
      have hlen : t.length = 4 := h4 t (List.mem_cons_self t ts)
      have hnone : UCI.to_move E pos t ≠ Move.MOVE_NONE := by
        intro hx
        exact hc.1 ((move_eq_none_iff _ _).mpr hx)
      have hmatch := to_move_matches E pos t (UCI.to_move E pos t) hnone rfl
      have hteq : t = UCI.move (UCI.to_move E pos t) pos.chess960 := by
        have hn := normalizePromo_of_len_ne t (by omega)
        conv_rhs => rw [← hmatch.1]
        exact hn.symm
      intro u hu
      rcases List.mem_cons.mp hu with hu | hu
      · subst hu
        have hrl : (UCI.move (UCI.to_move E pos u) pos.chess960).length = 4 := by
          rw [← hteq]
          exact hlen
        have := move_text_chars (UCI.to_move E pos u) pos.chess960 hrl
        rw [← hteq] at this
        exact this
      · exact ih (do_move pos (UCI.to_move E pos t)) ms'
          (fun v hv => h4 v (List.mem_cons_of_mem t hv)) hms' u hu
    · rw [if_neg hc] at ha
      exact absurd ha (by simp)

theorem applyMovesLoop_acceptRun (E : Engine) (pos : Position) (ts : List String)
    (ms : List Move) (ha : acceptRun E pos ts = some ms) :
    applyMovesLoop E pos ts = ms.foldl do_move pos := by
  induction ts generalizing pos ms with
  | nil =>
    have hms : ms = [] := by
      simp only [acceptRun] at ha
      exact (Option.some.inj ha).symm
    subst hms
    rfl
  | cons t ts ih =>
    simp only [acceptRun] at ha
    by_cases hc : UCI.move (UCI.to_move E pos t) false ≠ "(none)" ∧
        UCI.move (UCI.to_move E pos t) false ≠ "0000"
    · rw [if_pos hc] at ha
      rcases Option.map_eq_some'.mp ha with ⟨ms', hms', hcons⟩
      have hnone : UCI.to_move E pos t ≠ Move.MOVE_NONE := by
        intro hx
        exact hc.1 ((move_eq_none_iff _ _).mpr hx)
      simp only [applyMovesLoop]
      rw [if_neg hnone]
      rw [ih (do_move pos (UCI.to_move E pos t)) ms' hms']
      rw [← hcons]
      rfl
    · rw [if_neg hc] at ha
      exact absurd ha (by simp)

/-- C3. Replay-buffer equivalence: for every sequence of move texts
accepted in order from the initial position (each converted by the rules
engine to a canonical move whose rendering is neither sentinel), parsing
the accumulated replay buffer "startpos moves m1 .. mk" through the
position-setup parser and replaying from the initial position yields the
same position as applying the accepted canonical moves directly in
order. -/
theorem C3_replay_equivalence (E : Engine) (texts : List String) (ms : List Move)
    (p : Position)
    (h4 : ∀ t ∈ texts, t.length = 4)
    (ha : acceptRun E startpos0 texts = some ms) :
    positionCmd E p (words (replayBuffer texts)) = ms.foldl do_move startpos0 := by
  have hchars := acceptRun_chars E startpos0 texts ms h4 ha
  rw [words_replayBuffer texts hchars]
  show (if ("startpos" : String) = "startpos" then
      applyMovesLoop E (Position.set StartFEN UCI_Chess960_option) (("moves" :: texts).drop 1)
    else if ("startpos" : String) = "fen" then
      applyMovesLoop E (Position.set (collectFen ("moves" :: texts)) UCI_Chess960_option)
        (afterMoves ("moves" :: texts))
    else p) = ms.foldl do_move startpos0
  rw [if_pos rfl]
  show applyMovesLoop E startpos0 texts = ms.foldl do_move startpos0
  exact applyMovesLoop_acceptRun E startpos0 texts ms ha

/-- Witness for C3 at concrete inputs: with the demo engine, the single
accepted text e2e4 replays from the buffer to the same position as the
direct application of the canonical move. -/
theorem C3_replay_equivalence_witness :
    positionCmd demoEngine startpos0 (words (replayBuffer ["e2e4"])) =
      [moveE2E4].foldl do_move startpos0 :=
  C3_replay_equivalence demoEngine ["e2e4"] [moveE2E4] startpos0 (by decide) (by decide)

/- ### C9: the opening-move scenario -/

/-- C9 counterexample. The structured history stores the coordinate text
rendered by UCI::move (here e2e4), not a short algebraic record, so the
listing after move e2e4 on a fresh session is not ["1. e4"]. -/
theorem C9_opening_listing_counterexample :
    PGNlisting (chessboardStep demoEngine sessionInit "move e2e4").PGN_vec ≠ ["1. e4"] := by
  decide

/-- C9 as amended: on a fresh session, move e2e4 yields the structured
listing ["1. e2e4"] (one coordinate-text record), and the piece-raise
derivation reports last record e2e4, square e4, decimal index 28 and
binary output 11100. -/
theorem C9_opening_scenario_amended :
    PGNlisting (chessboardStep demoEngine sessionInit "move e2e4").PGN_vec = ["1. e2e4"] ∧
    pieceRaisingOutput (chessboardStep demoEngine sessionInit "move e2e4").PGN
        (chessboardStep demoEngine sessionInit "move e2e4").PGN_vec =
      some ⟨"e2e4", "e4", 28, "11100"⟩ := by
  decide

end BlindChess
